import Mathlib

/-
Shallow embedding of the core storage layer of the ai-secrets repository
(src/ai_secrets/storage.py, class SecretsStore), together with theorems
settling the specification claims about it.

Modelling conventions:
  * Python strings are Lean strings; Python str.strip is modelled by pyStrip.
  * The OS keyring for the fixed service namespace is a partial map from
    (stripped) secret names to values.
  * The metadata index file is modelled by FileContent: the file may be
    missing, may hold text that is not valid JSON, or may hold a JSON value.
  * Python exceptions are modelled by the PyErr type, one constructor per
    distinct raise site family in storage.py.
  * Each mutating operation returns the result (or the raised error) paired
    with the state of the world when the operation finished, so that partial
    effects before a raise are visible.
-/

namespace AiSecrets

/-- Model of Python str.strip on the character list of a string:
remove the longest whitespace prefix, then the longest whitespace suffix. -/
def stripList (l : List Char) : List Char :=
  ((l.dropWhile Char.isWhitespace).reverse.dropWhile Char.isWhitespace).reverse

/-- Model of Python str.strip, as used by storage.py for service names and
secret names. -/
def pyStrip (s : String) : String :=
  String.mk (stripList s.data)

/-- JSON values, as produced by Python json.loads (numbers restricted to
integers; no claim depends on fractional numbers). -/
inductive Json where
  | null : Json
  | bool (b : Bool) : Json
  | num (n : Int) : Json
  | str (s : String) : Json
  | arr (xs : List Json) : Json
  | obj (fields : List (String × Json)) : Json

/-- Python dict.get on the field list of a parsed JSON object (json.loads
collapses duplicate keys, so field lists coming from a parsed file have
unique keys; lookup takes the first binding). -/
def jget (fields : List (String × Json)) (key : String) : Option Json :=
  (fields.find? (fun p => p.1 == key)).map (fun p => p.2)

/-- Errors raised by storage.py, one constructor per raise-site family.
validationError and corruptIndex are both Python ValueError (the former from
the empty-name/value checks, the latter from the JSONDecodeError handler in
the method loading names); osError covers the OSError re-raises; attrError is
the uncaught AttributeError raised by data.get when json.loads returned a
non-dict document. -/
inductive PyErr where
  | validationError : PyErr
  | corruptIndex : PyErr
  | osError : PyErr
  | attrError : PyErr
deriving DecidableEq

/-- State of the metadata index file on disk. -/
inductive FileContent where
  | missing : FileContent
  | notJson : FileContent
  | json (j : Json) : FileContent

/-- State of the world a SecretsStore instance acts on: the keyring entries
for its service namespace (keyed by the stripped secret name), the metadata
index file, and a counter of completed index-file writes (how many times the
saving method ran), used to observe whether an operation rewrote the file. -/
structure Store where
  vault : String → Option String
  file : FileContent
  writes : Nat

/-- SecretsStore.__init__: rejects an empty or whitespace-only service name,
strips it, and derives the metadata file name with path separators replaced.
Returns the pair (stripped service name, metadata file name). -/
def initStore (service_name : String) : Except PyErr (String × String) :=
  if pyStrip service_name = "" then .error .validationError
  else
    let sn := pyStrip service_name
    let safe := (sn.replace "/" "_").replace "\\" "_"
    .ok (sn, "metadata_" ++ safe ++ ".json")

/-- SecretsStore._load_names: empty list when the file is missing; Python
ValueError (CorruptIndexError) when the text is not valid JSON; on a parsed
document data, data.get("secrets", []) raises AttributeError when data is not
an object; a secrets field that is an object yields its key list, a sequence
is returned as is (element types are not checked), and anything else yields
the empty list. -/
def load_names (f : FileContent) : Except PyErr (List Json) :=
  match f with
  | .missing => .ok []
  | .notJson => .error .corruptIndex
  | .json data =>
    match data with
    | .obj fields =>
      match (jget fields "secrets").getD (.arr []) with
      | .obj m => .ok (m.map (fun p => Json.str p.1))
      | .arr xs => .ok xs
      | _ => .ok []
    | _ => .error .attrError

/-- The JSON document json.dumps produces in SecretsStore._save_names. -/
def indexDoc (names : List Json) : Json :=
  .obj [("secrets", .arr names)]

/-- SecretsStore._save_names, success path: the file afterwards holds the
sequence-form document. -/
def save_names (names : List Json) : FileContent :=
  .json (indexDoc names)

/-- Python membership test name in names, where name is a string and names is
a list of parsed JSON values: true exactly on an equal string element. -/
def jsonEqStr (j : Json) (s : String) : Bool :=
  match j with
  | .str t => t == s
  | _ => false

/-- Python list.remove(name): drop the first element equal to the string. -/
def removeStr (names : List Json) (s : String) : List Json :=
  match names with
  | [] => []
  | j :: rest => if jsonEqStr j s then rest else j :: removeStr rest s

/-- Number of occurrences of the string s among the elements of names, under
the Python equality used by the index list. -/
def countStr (names : List Json) (s : String) : Nat :=
  (names.filter (fun j => jsonEqStr j s)).length

/-- SecretsStore.set: validate name and value, write the stripped name to the
keyring first, then load the index and append the raw name only when absent. -/
def set (s : Store) (name value : String) : Except PyErr Unit × Store :=
  if pyStrip name = "" then (.error .validationError, s)
  else if value = "" then (.error .validationError, s)
  else
    let s1 : Store :=
      { s with vault := fun k => if k = pyStrip name then some value else s.vault k }
    match load_names s1.file with
    | .error e => (.error e, s1)
    | .ok names =>
      if names.any (fun j => jsonEqStr j name) then (.ok (), s1)
      else
        (.ok (), { s1 with
                    file := save_names (names ++ [Json.str name]),
                    writes := s1.writes + 1 })

/-- SecretsStore.get: validate the name, then read the keyring at the
stripped name; the index is never consulted. -/
def get (s : Store) (name : String) : Except PyErr (Option String) :=
  if pyStrip name = "" then .error .validationError
  else .ok (s.vault (pyStrip name))

/-- SecretsStore.delete: validate, return false when get finds nothing;
otherwise delete the keyring entry, then remove the raw name from the index
when present (first occurrence only) and save. -/
def delete (s : Store) (name : String) : Except PyErr Bool × Store :=
  if pyStrip name = "" then (.error .validationError, s)
  else
    match s.vault (pyStrip name) with
    | none => (.ok false, s)
    | some _ =>
      let s1 : Store :=
        { s with vault := fun k => if k = pyStrip name then none else s.vault k }
      match load_names s1.file with
      | .error e => (.error e, s1)
      | .ok names =>
        if names.any (fun j => jsonEqStr j name) then
          (.ok true, { s1 with
                        file := save_names (removeStr names name),
                        writes := s1.writes + 1 })
        else (.ok true, s1)

/-- SecretsStore.list_names: delegates to the index loader. -/
def list_names (s : Store) : Except PyErr (List Json) :=
  load_names s.file

/-- Python dict assignment result[n] = v: overwrite in place when the key is
present, else append. -/
def dictInsert (d : List (String × String)) (k v : String) :
    List (String × String) :=
  if d.any (fun p => p.1 == k) then
    d.map (fun p => if p.1 == k then (k, v) else p)
  else d ++ [(k, v)]

/-- Loop body of SecretsStore.export_env: for each index entry call get and
keep the pair only when the value is truthy (present and non-empty); a
non-string index entry makes the name validation in get raise. -/
def exportGo (s : Store) (names : List Json) (acc : List (String × String)) :
    Except PyErr (List (String × String)) :=
  match names with
  | [] => .ok acc
  | .str nm :: rest =>
    if pyStrip nm = "" then .error .validationError
    else
      match s.vault (pyStrip nm) with
      | some v =>
        if v = "" then exportGo s rest acc
        else exportGo s rest (dictInsert acc nm v)
      | none => exportGo s rest acc
  | _ :: _ => .error .attrError

/-- SecretsStore.export_env: load the index names and collect the truthy
keyring values. -/
def export_env (s : Store) : Except PyErr (List (String × String)) :=
  match load_names s.file with
  | .error e => .error e
  | .ok names => exportGo s names []

/-- The two externally observable moments of Path.write_text, which opens the
target with mode w: the file is first truncated to empty text (not valid
JSON), and only then does the document get written. There is no temporary
file and no rename. -/
inductive WriteStep where
  | truncated : WriteStep
  | written : WriteStep
deriving DecidableEq

/-- File state observable at each moment of Path.write_text inside
SecretsStore._save_names; a failure after the truncation leaves the truncated
state behind. -/
def write_text_state (doc : Json) : WriteStep → FileContent
  | .truncated => .notJson
  | .written => .json doc

/-! Helper lemmas about the embedding. -/

theorem dropWhile_eq_self_of_head (p : α → Bool) (l : List α)
    (h : ∀ a, l.head? = some a → p a = false) : l.dropWhile p = l := by
  cases l with
  | nil => rfl
  | cons a t =>
    rw [List.dropWhile_cons_of_neg]
    simp [h a rfl]

theorem head_dropWhile_false (p : α → Bool) (l : List α) (a : α)
    (h : (l.dropWhile p).head? = some a) : p a = false := by
  have hm := List.head?_dropWhile_not p l
  rw [h] at hm
  exact hm

theorem dropWhile_idem (p : α → Bool) (l : List α) :
    (l.dropWhile p).dropWhile p = l.dropWhile p := by
  apply dropWhile_eq_self_of_head
  intro a ha
  exact head_dropWhile_false p l a ha

theorem stripList_prefix_dropWhile (l : List Char) :
    stripList l <+: l.dropWhile Char.isWhitespace := by
  have h := List.dropWhile_suffix
    (l := (l.dropWhile Char.isWhitespace).reverse) Char.isWhitespace
  have h2 := List.reverse_prefix.mpr h
  simpa [stripList] using h2

theorem stripList_head_false (l : List Char) (a : Char)
    (h : (stripList l).head? = some a) : Char.isWhitespace a = false := by
  have hpre := stripList_prefix_dropWhile l
  obtain ⟨t, ht⟩ := hpre
  have hne : stripList l ≠ [] := by
    intro hnil
    rw [hnil] at h
    exact Option.noConfusion h
  have hhead : (l.dropWhile Char.isWhitespace).head? = some a := by
    rw [← ht]
    cases hsl : stripList l with
    | nil => exact absurd hsl hne
    | cons b bs =>
      rw [hsl] at h
      simp at h
      simp [h]
  exact head_dropWhile_false _ l a hhead

theorem stripList_reverse_eq (l : List Char) :
    (stripList l).reverse =
      (l.dropWhile Char.isWhitespace).reverse.dropWhile Char.isWhitespace := by
  simp [stripList]

theorem stripList_idem (l : List Char) : stripList (stripList l) = stripList l := by
  have h1 : (stripList l).dropWhile Char.isWhitespace = stripList l :=
    dropWhile_eq_self_of_head _ _ (fun a ha => stripList_head_false l a ha)
  have h2 : (stripList l).reverse.dropWhile Char.isWhitespace = (stripList l).reverse := by
    rw [stripList_reverse_eq]
    exact dropWhile_idem _ _
  show (((stripList l).dropWhile Char.isWhitespace).reverse.dropWhile
      Char.isWhitespace).reverse = stripList l
  rw [h1, h2, List.reverse_reverse]

theorem pyStrip_idem (s : String) : pyStrip (pyStrip s) = pyStrip s := by
  simp [pyStrip, stripList_idem]

/-- Reading back the document written by save_names yields the same list. -/
theorem load_save (names : List Json) : load_names (save_names names) = .ok names := rfl

theorem jsonEqStr_iff (j : Json) (s : String) : jsonEqStr j s = true ↔ j = .str s := by
  cases j <;> simp [jsonEqStr]

theorem any_jsonEqStr (names : List Json) (s : String) :
    names.any (fun j => jsonEqStr j s) = true ↔ Json.str s ∈ names := by
  rw [List.any_eq_true]
  constructor
  · rintro ⟨j, hj, hts⟩
    rw [(jsonEqStr_iff j s).mp hts] at hj
    exact hj
  · intro hmem
    exact ⟨Json.str s, hmem, by simp [jsonEqStr]⟩

theorem countStr_append (a b : List Json) (s : String) :
    countStr (a ++ b) s = countStr a s + countStr b s := by
  simp [countStr, List.filter_append]

theorem countStr_cons (j : Json) (rest : List Json) (s : String) :
    countStr (j :: rest) s =
      (if jsonEqStr j s then 1 else 0) + countStr rest s := by
  by_cases h : jsonEqStr j s = true
  · simp [countStr, List.filter_cons, h, Nat.add_comm]
  · simp [countStr, List.filter_cons, h]

theorem countStr_eq_zero_iff (names : List Json) (s : String) :
    countStr names s = 0 ↔ names.any (fun j => jsonEqStr j s) = false := by
  simp [countStr, List.length_eq_zero, List.filter_eq_nil, List.any_eq_false]

theorem countStr_pos_of_any (names : List Json) (s : String)
    (h : names.any (fun j => jsonEqStr j s) = true) : 1 ≤ countStr names s := by
  rcases Nat.eq_zero_or_pos (countStr names s) with h0 | h1
  · rw [(countStr_eq_zero_iff names s).mp h0] at h
    exact Bool.noConfusion h
  · exact h1

theorem countStr_singleton_self (s : String) : countStr [Json.str s] s = 1 := by
  simp [countStr, List.filter, jsonEqStr]

theorem countStr_removeStr (names : List Json) (s : String) :
    countStr (removeStr names s) s = countStr names s - 1 := by
  induction names with
  | nil => rfl
  | cons j rest ih =>
    by_cases h : jsonEqStr j s = true
    · have hr : removeStr (j :: rest) s = rest := by simp [removeStr, h]
      rw [hr, countStr_cons, if_pos h]
      omega
    · have hr : removeStr (j :: rest) s = j :: removeStr rest s := by
        simp [removeStr, h]
      rw [hr, countStr_cons, countStr_cons, ih]
      simp only [if_neg h]
      omega

/-- Closed form of set on a valid name and value when the index loads. -/
theorem set_eq (s : Store) (name value : String) (names : List Json)
    (hn : pyStrip name ≠ "") (hv : value ≠ "")
    (hload : load_names s.file = .ok names) :
    set s name value =
      (.ok (),
        { vault := fun k => if k = pyStrip name then some value else s.vault k,
          file := if names.any (fun j => jsonEqStr j name) then s.file
                  else save_names (names ++ [Json.str name]),
          writes := if names.any (fun j => jsonEqStr j name) then s.writes
                    else s.writes + 1 }) := by
  simp only [set, if_neg hn, if_neg hv, hload]
  cases hmem : names.any (fun j => jsonEqStr j name) <;> simp [hmem]

/-- Closed form of delete on a valid name whose value is present. -/
theorem delete_eq_present (s : Store) (name v : String) (names : List Json)
    (hn : pyStrip name ≠ "") (hv : s.vault (pyStrip name) = some v)
    (hload : load_names s.file = .ok names) :
    delete s name =
      (.ok true,
        { vault := fun k => if k = pyStrip name then none else s.vault k,
          file := if names.any (fun j => jsonEqStr j name)
                  then save_names (removeStr names name) else s.file,
          writes := if names.any (fun j => jsonEqStr j name)
                    then s.writes + 1 else s.writes }) := by
  simp only [delete, if_neg hn, hv, hload]
  cases hmem : names.any (fun j => jsonEqStr j name) <;> simp [hmem]

/-- After a successful set on a store whose index lists the name at most
once, the index lists it exactly once. -/
theorem set_post_index (s : Store) (name value : String) (names : List Json)
    (hn : pyStrip name ≠ "") (hv : value ≠ "")
    (hload : load_names s.file = .ok names)
    (honce : countStr names name ≤ 1) :
    ∃ names1, load_names (set s name value).2.file = .ok names1 ∧
      countStr names1 name = 1 := by
  rw [set_eq s name value names hn hv hload]
  cases hmem : names.any (fun j => jsonEqStr j name) with
  | true =>
    refine ⟨names, by simp [hmem, hload], ?_⟩
    have h1 := countStr_pos_of_any names name hmem
    omega
  | false =>
    refine ⟨names ++ [Json.str name], by simp [hmem, load_save], ?_⟩
    rw [countStr_append, countStr_singleton_self,
      (countStr_eq_zero_iff names name).mpr hmem]

/-! Claim theorems. -/

/-- C1: for every name with non-empty stripped form and every non-empty
value, on a store whose loaded index lists the name at most once, set
succeeds, get then returns exactly the value, and the name occurs exactly
once in the sequence returned by list_names. -/
theorem C1_set_get_listNames (s : Store) (name value : String) (names : List Json)
    (hn : pyStrip name ≠ "") (hv : value ≠ "")
    (hload : load_names s.file = .ok names)
    (honce : countStr names name ≤ 1) :
    (set s name value).1 = .ok () ∧
    get (set s name value).2 name = .ok (some value) ∧
    ∃ names2, list_names (set s name value).2 = .ok names2 ∧
      countStr names2 name = 1 := by
  obtain ⟨names1, hload1, hcount1⟩ :=
    set_post_index s name value names hn hv hload honce
  rw [set_eq s name value names hn hv hload]
  rw [set_eq s name value names hn hv hload] at hload1
  exact ⟨rfl, by simp [get, hn], names1, hload1, hcount1⟩

/-- C4: for every name with non-empty stripped form: when get finds nothing,
delete returns false and leaves the whole state unchanged; when get finds a
value and the loaded index lists the name at most once, delete returns true,
a subsequent get finds nothing, and the name no longer occurs in the
sequence returned by list_names. -/
theorem C4_delete_behavior (s : Store) (name : String)
    (hn : pyStrip name ≠ "") :
    (get s name = .ok none → delete s name = (.ok false, s)) ∧
    (∀ v names, get s name = .ok (some v) →
      load_names s.file = .ok names → countStr names name ≤ 1 →
      (delete s name).1 = .ok true ∧
      get (delete s name).2 name = .ok none ∧
      ∃ names2, list_names (delete s name).2 = .ok names2 ∧
        countStr names2 name = 0) := by
  constructor
  · intro habs
    have hv : s.vault (pyStrip name) = none := by
      simpa [get, hn] using habs
    simp [delete, hn, hv]
  · intro v names hpres hload honce
    have hv : s.vault (pyStrip name) = some v := by
      simpa [get, hn] using hpres
    rw [delete_eq_present s name v names hn hv hload]
    refine ⟨rfl, by simp [get, hn], ?_⟩
    cases hmem : names.any (fun j => jsonEqStr j name) with
    | true =>
      refine ⟨removeStr names name, by simp [list_names, hmem, load_save], ?_⟩
      rw [countStr_removeStr]
      omega
    | false =>
      exact ⟨names, by simp [list_names, hmem, hload],
        (countStr_eq_zero_iff names name).mpr hmem⟩

/-- C5: setting the same valid name twice leaves exactly one occurrence of
the name in the index, get returns the second value, and the second set
does not rewrite the index file at all (the write counter and the file are
both unchanged). -/
theorem C5_set_set_idempotent (s : Store) (name v1 v2 : String) (names : List Json)
    (hn : pyStrip name ≠ "") (hv1 : v1 ≠ "") (hv2 : v2 ≠ "")
    (hload : load_names s.file = .ok names)
    (honce : countStr names name ≤ 1) :
    (set (set s name v1).2 name v2).1 = .ok () ∧
    get (set (set s name v1).2 name v2).2 name = .ok (some v2) ∧
    (∃ names2, list_names (set (set s name v1).2 name v2).2 = .ok names2 ∧
      countStr names2 name = 1) ∧
    (set (set s name v1).2 name v2).2.writes = (set s name v1).2.writes ∧
    (set (set s name v1).2 name v2).2.file = (set s name v1).2.file := by
  obtain ⟨names1, hload1, hcount1⟩ :=
    set_post_index s name v1 names hn hv1 hload honce
  have hany1 : names1.any (fun j => jsonEqStr j name) = true := by
    cases hany : names1.any (fun j => jsonEqStr j name) with
    | true => rfl
    | false =>
      rw [(countStr_eq_zero_iff names1 name).mpr hany] at hcount1
      exact absurd hcount1 (by omega)
  rw [set_eq (set s name v1).2 name v2 names1 hn hv2 hload1]
  refine ⟨rfl, by simp [get, hn], ⟨names1, ?_, hcount1⟩, by simp [hany1], by simp [hany1]⟩
  simp [list_names, hany1, hload1]

/-- The everywhere-empty vault used for concrete instances. -/
def vault0 : String → Option String := fun _ => none

/-- A fresh store: empty vault, no index file yet. -/
def store0 : Store := ⟨vault0, .missing, 0⟩

/-- C2 counterexample: a whitespace-only value is not rejected; set on the
fresh store succeeds and writes the whitespace value into the vault and the
name into the index, because the code only checks that the value is not the
empty string. -/
theorem C2_counterexample :
    (set store0 "A" " ").1 = .ok () ∧
    (set store0 "A" " ").2.vault "A" = some " " ∧
    (set store0 "A" " ").2.writes = 1 := by
  exact ⟨rfl, rfl, rfl⟩

/-- C2 amended: an empty or whitespace-only service name is rejected at
construction; an empty or whitespace-only secret name is rejected by set,
get and delete; an empty (but not a whitespace-only) value is rejected by
set; each rejection happens before any vault or index effect, returning the
state unchanged. -/
theorem C2_validation_rejects_first (service_name name value : String) (s : Store) :
    (pyStrip service_name = "" →
      initStore service_name = .error .validationError) ∧
    (pyStrip name = "" →
      set s name value = (.error .validationError, s) ∧
      get s name = .error .validationError ∧
      delete s name = (.error .validationError, s)) ∧
    (value = "" → set s name value = (.error .validationError, s)) := by
  refine ⟨fun h => by simp [initStore, h], fun h => ?_, fun h => ?_⟩
  · exact ⟨by simp [set, h], by simp [get, h], by simp [delete, h]⟩
  · by_cases hn : pyStrip name = ""
    · simp [set, hn]
    · simp [set, hn, h]

/-- C2 witness: the rejections of C2_validation_rejects_first at concrete
inputs. -/
theorem C2_validation_witness :
    initStore "  " = .error .validationError ∧
    set store0 " " "x" = (.error .validationError, store0) ∧
    set store0 "A" "" = (.error .validationError, store0) :=
  ⟨(C2_validation_rejects_first "  " "n" "v" store0).1 (by decide),
   ((C2_validation_rejects_first "s" " " "x" store0).2.1 (by decide)).1,
   (C2_validation_rejects_first "s" "A" "" store0).2.2 rfl⟩

/-- C3 counterexample: a file that holds valid JSON whose secrets field is
neither a sequence nor a mapping is not the expected schema, yet loading
silently returns the empty list instead of failing. -/
theorem C3_counterexample :
    load_names (.json (.obj [("secrets", .num 42)])) = .ok [] := rfl

/-- C3 amended: loading fails with CorruptIndexError exactly when the file
text is not valid JSON; a file holding valid JSON whose secrets field is
neither a sequence nor a mapping silently yields the empty list (and a
valid-JSON top level that is not an object raises an uncaught
AttributeError rather than CorruptIndexError). -/
theorem C3_load_names_schema (fields : List (String × Json)) (sv j : Json) :
    load_names .notJson = .error .corruptIndex ∧
    (jget fields "secrets" = some sv →
      (∀ xs, sv ≠ .arr xs) → (∀ m, sv ≠ .obj m) →
      load_names (.json (.obj fields)) = .ok []) ∧
    ((∀ fs, j ≠ .obj fs) → load_names (.json j) = .error .attrError) := by
  refine ⟨rfl, fun hget harr hobj => ?_, fun hno => ?_⟩
  · simp only [load_names, hget, Option.getD_some]
  · cases j with
    | obj fs => exact absurd rfl (hno fs)
    | null => rfl
    | bool b => rfl
    | num n => rfl
    | str t => rfl
    | arr xs => rfl

/-- C3 witness: the amended behavior at concrete inputs. -/
theorem C3_schema_witness :
    load_names (.json (.obj [("secrets", .str "oops")])) = .ok [] ∧
    load_names (.json (.arr [])) = .error .attrError :=
  ⟨(C3_load_names_schema [("secrets", .str "oops")] (.str "oops") .null).2.1
      rfl (fun xs h => Json.noConfusion h) (fun m h => Json.noConfusion h),
   (C3_load_names_schema [] .null (.arr [])).2.2 (fun fs h => Json.noConfusion h)⟩

/-- The index file content before the writes used in the C6 theorems. -/
def priorFile : FileContent := save_names [Json.str "B"]

/-- C6 counterexample: the saving method writes with Path.write_text, which
truncates in place; mid-write the file is in a state that is neither the
prior document nor the new one, so a reader can observe a half-written
(here: truncated, unparseable) file, and a failure at that point has already
destroyed the prior content. -/
theorem C6_counterexample :
    write_text_state (indexDoc [Json.str "A"]) .truncated ≠ priorFile ∧
    write_text_state (indexDoc [Json.str "A"]) .truncated ≠
      write_text_state (indexDoc [Json.str "A"]) .written ∧
    load_names (write_text_state (indexDoc [Json.str "A"]) .truncated) =
      .error .corruptIndex :=
  ⟨fun h => FileContent.noConfusion h, fun h => FileContent.noConfusion h, rfl⟩

/-- C6 amended: the index overwrite is a plain truncating in-place write,
not an atomic replace: at the intermediate step of Path.write_text the file
holds no valid JSON, a reader at that moment gets CorruptIndexError instead
of the prior names, and a failure after the truncation leaves that ruined
state rather than the prior content; only the completed write holds the new
sequence-form document. -/
theorem C6_write_not_atomic (names : List Json) :
    write_text_state (indexDoc names) .truncated = .notJson ∧
    load_names (write_text_state (indexDoc names) .truncated) =
      .error .corruptIndex ∧
    write_text_state (indexDoc names) .written = save_names names :=
  ⟨rfl, rfl, rfl⟩

/-- C8: a legacy index document whose secrets field is a mapping loads as
the list of its keys without raising, and every index write produced by the
saving method uses the sequence form. -/
theorem C8_legacy_read_sequence_write (s : Store)
    (fields m : List (String × Json))
    (hfile : s.file = .json (.obj fields))
    (hsecrets : jget fields "secrets" = some (.obj m)) :
    list_names s = .ok (m.map (fun p => Json.str p.1)) ∧
    ∀ names, save_names names = .json (.obj [("secrets", .arr names)]) := by
  refine ⟨?_, fun names => rfl⟩
  simp [list_names, load_names, hfile, hsecrets]

/-- A store whose index file is in the legacy mapping format. -/
def legacyStore : Store :=
  ⟨vault0, .json (.obj [("secrets", .obj [("X", .obj []), ("Y", .obj [])])]), 0⟩

/-- C8 witness: the legacy document with keys X and Y lists exactly X and Y. -/
theorem C8_legacy_witness :
    list_names legacyStore = .ok [Json.str "X", Json.str "Y"] ∧
    save_names [Json.str "X"] = .json (.obj [("secrets", .arr [Json.str "X"])]) := by
  have h := C8_legacy_read_sequence_write legacyStore
    [("secrets", .obj [("X", .obj []), ("Y", .obj [])])]
    [("X", .obj []), ("Y", .obj [])] rfl rfl
  exact ⟨h.1, h.2 [Json.str "X"]⟩

/-- C9: get is a function of the vault alone; two stores with the same vault
but arbitrarily different index files (and write counters) give the same
result, and the definition of get never touches the file. -/
theorem C9_get_reads_only_vault (s1 s2 : Store) (name : String)
    (h : s1.vault = s2.vault) :
    get s1 name = get s2 name := by
  simp [get, h]

/-- A store sharing the vault of store0 but with a different, even
unparseable, index file. -/
def store0bad : Store := ⟨vault0, .notJson, 7⟩

/-- C9 witness: same vault, index file missing versus unparseable, same get
result. -/
theorem C9_witness : get store0 "A" = get store0bad "A" :=
  C9_get_reads_only_vault store0 store0bad "A" rfl

theorem dictInsert_mem (acc : List (String × String)) (k v : String)
    (hinv : ∀ v2, (k, v2) ∈ acc → v2 = v) (a b : String) :
    (a, b) ∈ dictInsert acc k v ↔ (a, b) ∈ acc ∨ (a = k ∧ b = v) := by
  unfold dictInsert
  cases hany : acc.any (fun p => p.1 == k) with
  | false =>
    rw [if_neg (by simp [hany])]
    simp
  | true =>
    have hmap : acc.map (fun p => if p.1 == k then (k, v) else p) = acc := by
      conv_rhs => rw [← List.map_id acc]
      apply List.map_congr_left
      intro p hp
      by_cases hpk : (p.1 == k) = true
      · have hk : p.1 = k := by simpa using hpk
        have hv2 : p.2 = v := hinv p.2 (by rw [← hk]; exact hp)
        simp only [hpk, if_pos, id]
        rw [← hk, ← hv2]
      · simp [hpk]
    simp only [hany, if_pos]
    rw [hmap]
    constructor
    · exact fun h => Or.inl h
    · rintro (h | ⟨rfl, rfl⟩)
      · exact h
      · obtain ⟨p, hp, hpk⟩ := List.any_eq_true.mp hany
        have hk : p.1 = a := by simpa using hpk
        have hv2 : p.2 = b := hinv p.2 (by rw [← hk]; exact hp)
        have : p = (a, b) := Prod.ext hk hv2
        rw [← this]
        exact hp

theorem exportGo_mem (s : Store) (names : List Json) :
    ∀ acc : List (String × String),
      (∀ k v, (k, v) ∈ acc → s.vault (pyStrip k) = some v ∧ v ≠ "") →
      (∀ j ∈ names, ∃ nm, j = Json.str nm ∧ pyStrip nm ≠ "") →
      ∃ r, exportGo s names acc = .ok r ∧
        ∀ k v, ((k, v) ∈ r ↔
          ((k, v) ∈ acc ∨
            (Json.str k ∈ names ∧ s.vault (pyStrip k) = some v ∧ v ≠ ""))) := by
  induction names with
  | nil =>
    intro acc hacc hstr
    exact ⟨acc, rfl, fun k v => by simp⟩
  | cons j rest ih =>
    intro acc hacc hstr
    obtain ⟨nm, rfl, hnm⟩ := hstr j (List.mem_cons_self j rest)
    have hstr2 : ∀ j ∈ rest, ∃ nm2, j = Json.str nm2 ∧ pyStrip nm2 ≠ "" :=
      fun j hj => hstr j (List.mem_cons_of_mem _ hj)
    cases hv : s.vault (pyStrip nm) with
    | none =>
      obtain ⟨r, hr, hmem⟩ := ih acc hacc hstr2
      refine ⟨r, by simp [exportGo, hnm, hv, hr], fun k v => ?_⟩
      rw [hmem k v]
      constructor
      · rintro (h | ⟨h1, h2, h3⟩)
        · exact Or.inl h
        · exact Or.inr ⟨List.mem_cons_of_mem _ h1, h2, h3⟩
      · rintro (h | ⟨h1, h2, h3⟩)
        · exact Or.inl h
        · rcases List.mem_cons.mp h1 with heq | hmem2
          · injection heq with hk
            rw [hk, hv] at h2
            exact Option.noConfusion h2
          · exact Or.inr ⟨hmem2, h2, h3⟩
    | some v0 =>
      by_cases hv0 : v0 = ""
      · subst hv0
        obtain ⟨r, hr, hmem⟩ := ih acc hacc hstr2
        refine ⟨r, by simp [exportGo, hnm, hv, hr], fun k v => ?_⟩
        rw [hmem k v]
        constructor
        · rintro (h | ⟨h1, h2, h3⟩)
          · exact Or.inl h
          · exact Or.inr ⟨List.mem_cons_of_mem _ h1, h2, h3⟩
        · rintro (h | ⟨h1, h2, h3⟩)
          · exact Or.inl h
          · rcases List.mem_cons.mp h1 with heq | hmem2
            · injection heq with hk
              rw [hk, hv] at h2
              injection h2 with h2
              exact absurd h2.symm h3
            · exact Or.inr ⟨hmem2, h2, h3⟩
      · have hinv : ∀ v2, (nm, v2) ∈ acc → v2 = v0 := by
          intro v2 hm
          have h := (hacc nm v2 hm).1
          rw [hv] at h
          injection h with h
          exact h.symm
        have hacc2 : ∀ k v, (k, v) ∈ dictInsert acc nm v0 →
            s.vault (pyStrip k) = some v ∧ v ≠ "" := by
          intro k v hm
          rcases (dictInsert_mem acc nm v0 hinv k v).mp hm with h | ⟨rfl, rfl⟩
          · exact hacc k v h
          · exact ⟨hv, hv0⟩
        obtain ⟨r, hr, hmem⟩ := ih (dictInsert acc nm v0) hacc2 hstr2
        refine ⟨r, by simp [exportGo, hnm, hv, hv0, hr], fun k v => ?_⟩
        rw [hmem k v, dictInsert_mem acc nm v0 hinv k v]
        constructor
        · rintro ((h | ⟨rfl, rfl⟩) | ⟨h1, h2, h3⟩)
          · exact Or.inl h
          · exact Or.inr ⟨List.mem_cons_self _ _, hv, hv0⟩
          · exact Or.inr ⟨List.mem_cons_of_mem _ h1, h2, h3⟩
        · rintro (h | ⟨h1, h2, h3⟩)
          · exact Or.inl (Or.inl h)
          · rcases List.mem_cons.mp h1 with heq | hmem2
            · injection heq with hk
              rw [hk, hv] at h2
              injection h2 with h2
              exact Or.inl (Or.inr ⟨hk, h2.symm⟩)
            · exact Or.inr ⟨hmem2, h2, h3⟩

/-- A store whose index lists A while the vault holds the empty string for
A: reachable only through a side channel, but within the quantification of
the claim over every vault state. -/
def emptyValStore : Store :=
  ⟨fun k => if k = "A" then some "" else none, save_names [Json.str "A"], 0⟩

/-- C7 counterexample: the index lists A, the vault read for A returns a
present value (the empty string), yet the export is empty: the code keeps a
pair only when the value is truthy, so a present empty value is dropped. -/
theorem C7_counterexample :
    list_names emptyValStore = .ok [Json.str "A"] ∧
    get emptyValStore "A" = .ok (some "") ∧
    export_env emptyValStore = .ok [] :=
  ⟨rfl, rfl, rfl⟩

/-- C7 amended: for an index of string names with non-empty stripped forms,
export succeeds and returns exactly the pairs whose vault read (at the
stripped name) is present and non-empty; names whose vault entry is missing
or empty are silently dropped rather than failing the export. -/
theorem C7_export_exact (s : Store) (names : List Json)
    (hload : load_names s.file = .ok names)
    (hstr : ∀ j ∈ names, ∃ nm, j = Json.str nm ∧ pyStrip nm ≠ "") :
    ∃ r, export_env s = .ok r ∧
      ∀ k v, ((k, v) ∈ r ↔
        (Json.str k ∈ names ∧ s.vault (pyStrip k) = some v ∧ v ≠ "")) := by
  obtain ⟨r, hr, hmem⟩ := exportGo_mem s names [] (by simp) hstr
  refine ⟨r, by simp [export_env, hload, hr], fun k v => ?_⟩
  rw [hmem k v]
  simp

/-- The store used in the C7 and C4 witnesses: secret A with value x. -/
def storeA : Store :=
  ⟨fun k => if k = "A" then some "x" else none, save_names [Json.str "A"], 1⟩

/-- C7 witness: C7_export_exact applied to the concrete store holding A. -/
theorem C7_export_witness :
    ∃ r, export_env storeA = .ok r ∧
      ∀ k v, ((k, v) ∈ r ↔
        (Json.str k ∈ [Json.str "A"] ∧ storeA.vault (pyStrip k) = some v ∧
          v ≠ "")) :=
  C7_export_exact storeA [Json.str "A"] rfl
    (by
      intro j hj
      rw [List.mem_singleton] at hj
      exact ⟨"A", hj, by decide⟩)

/-- C10: for a name with surrounding whitespace (stripped form non-empty and
different from the raw string), set stores the value in the vault under the
stripped name while the index records the raw string; get on any store
agrees on a name and its stripped form; and after also setting the stripped
name, the raw and the stripped string are both listed as distinct entries. -/
theorem C10_raw_index_stripped_vault (s : Store) (name value : String)
    (names : List Json)
    (hraw : pyStrip name ≠ name) (hn : pyStrip name ≠ "") (hv : value ≠ "")
    (hload : load_names s.file = .ok names) :
    (set s name value).2.vault (pyStrip name) = some value ∧
    (∃ names2, list_names (set s name value).2 = .ok names2 ∧
      Json.str name ∈ names2) ∧
    (∀ t : Store, ∀ n : String, get t n = get t (pyStrip n)) ∧
    (∀ v2, v2 ≠ "" →
      ∃ names3,
        list_names (set (set s name value).2 (pyStrip name) v2).2 = .ok names3 ∧
        Json.str name ∈ names3 ∧ Json.str (pyStrip name) ∈ names3) := by
  refine ⟨?_, ?_, ?_, ?_⟩
  · rw [set_eq s name value names hn hv hload]
    simp
  · cases hmem : names.any (fun j => jsonEqStr j name) with
    | true =>
      refine ⟨names, ?_, (any_jsonEqStr names name).mp hmem⟩
      rw [set_eq s name value names hn hv hload]
      simp [list_names, hmem, hload]
    | false =>
      refine ⟨names ++ [Json.str name], ?_, by simp⟩
      rw [set_eq s name value names hn hv hload]
      simp [list_names, hmem, load_save]
  · intro t n
    by_cases hne : pyStrip n = ""
    · have h0 : pyStrip "" = "" := rfl
      simp [get, hne, h0]
    · simp [get, hne, pyStrip_idem]
  · intro v2 hv2
    have hsn : pyStrip (pyStrip name) ≠ "" := by
      rw [pyStrip_idem]
      exact hn
    cases hmem : names.any (fun j => jsonEqStr j name) with
    | true =>
      have hload1 : load_names (set s name value).2.file = .ok names := by
        rw [set_eq s name value names hn hv hload]
        simp [hmem, hload]
      rw [set_eq (set s name value).2 (pyStrip name) v2 names hsn hv2 hload1]
      cases hmem2 : names.any (fun j => jsonEqStr j (pyStrip name)) with
      | true =>
        exact ⟨names, by simp [list_names, hmem2, hload1],
          (any_jsonEqStr names name).mp hmem,
          (any_jsonEqStr names (pyStrip name)).mp hmem2⟩
      | false =>
        refine ⟨names ++ [Json.str (pyStrip name)],
          by simp [list_names, hmem2, load_save], ?_, by simp⟩
        exact List.mem_append_left _ ((any_jsonEqStr names name).mp hmem)
    | false =>
      have hload1 : load_names (set s name value).2.file =
          .ok (names ++ [Json.str name]) := by
        rw [set_eq s name value names hn hv hload]
        simp [hmem, load_save]
      rw [set_eq (set s name value).2 (pyStrip name) v2
        (names ++ [Json.str name]) hsn hv2 hload1]
      cases hmem2 : (names ++ [Json.str name]).any
          (fun j => jsonEqStr j (pyStrip name)) with
      | true =>
        exact ⟨names ++ [Json.str name],
          by simp [list_names, hmem2, hload1], by simp,
          (any_jsonEqStr _ (pyStrip name)).mp hmem2⟩
      | false =>
        refine ⟨names ++ [Json.str name] ++ [Json.str (pyStrip name)],
          by simp [list_names, hmem2, load_save], ?_, by simp⟩
        exact List.mem_append_left _ (by simp)

/-! Witnesses for the claim theorems that carry hypotheses. -/

/-- C1 witness: C1_set_get_listNames on the fresh store with name A and
value x. -/
theorem C1_witness :
    (set store0 "A" "x").1 = .ok () ∧
    get (set store0 "A" "x").2 "A" = .ok (some "x") ∧
    ∃ names2, list_names (set store0 "A" "x").2 = .ok names2 ∧
      countStr names2 "A" = 1 :=
  C1_set_get_listNames store0 "A" "x" [] (by decide) (by decide) rfl
    (by decide)

/-- C4 witness: both branches of C4_delete_behavior, on the fresh store for
an absent name and on the store holding A for a present one. -/
theorem C4_witness :
    delete store0 "B" = (.ok false, store0) ∧
    ((delete storeA "A").1 = .ok true ∧
      get (delete storeA "A").2 "A" = .ok none ∧
      ∃ names2, list_names (delete storeA "A").2 = .ok names2 ∧
        countStr names2 "A" = 0) :=
  ⟨(C4_delete_behavior store0 "B" (by decide)).1 rfl,
   (C4_delete_behavior storeA "A" (by decide)).2 "x" [Json.str "A"] rfl rfl
     (by decide)⟩

/-- C5 witness: C5_set_set_idempotent on the fresh store, setting A twice. -/
theorem C5_witness :
    (set (set store0 "A" "v1").2 "A" "v2").1 = .ok () ∧
    get (set (set store0 "A" "v1").2 "A" "v2").2 "A" = .ok (some "v2") ∧
    (∃ names2, list_names (set (set store0 "A" "v1").2 "A" "v2").2 =
        .ok names2 ∧ countStr names2 "A" = 1) ∧
    (set (set store0 "A" "v1").2 "A" "v2").2.writes =
      (set store0 "A" "v1").2.writes ∧
    (set (set store0 "A" "v1").2 "A" "v2").2.file =
      (set store0 "A" "v1").2.file :=
  C5_set_set_idempotent store0 "A" "v1" "v2" [] (by decide) (by decide)
    (by decide) rfl (by decide)

/-- C10 witness: C10_raw_index_stripped_vault on the fresh store with the
padded name. -/
theorem C10_witness :
    (set store0 " A " "x").2.vault (pyStrip " A ") = some "x" ∧
    (∃ names2, list_names (set store0 " A " "x").2 = .ok names2 ∧
      Json.str " A " ∈ names2) ∧
    (∀ t : Store, ∀ n : String, get t n = get t (pyStrip n)) ∧
    (∀ v2, v2 ≠ "" →
      ∃ names3,
        list_names (set (set store0 " A " "x").2 (pyStrip " A ") v2).2 =
          .ok names3 ∧
        Json.str " A " ∈ names3 ∧ Json.str (pyStrip " A ") ∈ names3) :=
  C10_raw_index_stripped_vault store0 " A " "x" [] (by decide) (by decide)
    (by decide) rfl

end AiSecrets
